import Mathlib

/-!
Shallow embedding of the GMCC calendar scraper core (src/api/classes.ts,
the cheerio-based handler and its helpers).  JavaScript regex character
classes are modelled over ASCII: the class \s as ASCII whitespace, \d as
ASCII digits, \w as letters, digits and underscore, and toLowerCase as
ASCII lowercasing; every string the claims mention is ASCII, where the
model and the source agree.  Instants ("ISO strings" in the source) are
modelled as milliseconds since the local epoch: the source interprets
naive date/time strings in the local timezone of the host and all later
arithmetic (day index, minutes of day) is done on the same local clock,
so a fixed zero offset is a faithful shallow embedding.
-/

namespace Scraper

/-- ASCII model of the JS regex class \s. -/
def isWsChar (c : Char) : Bool :=
  c = ' ' || c = '\t' || c = '\n' || c = '\r' || c = '\u000B' || c = '\u000C'

/-- ASCII model of the JS regex class \w. -/
def isWordChar (c : Char) : Bool := c.isAlphanum || c = '_'

/-- Collapse every run of whitespace to a single space, the JS
replace of the pattern \s+ by a single space.  The Boolean flag
records whether the previous character was whitespace. -/
def collapseWsGo : Bool → List Char → List Char
  | _, [] => []
  | prevWs, c :: cs =>
    if isWsChar c then
      if prevWs then collapseWsGo true cs else ' ' :: collapseWsGo true cs
    else c :: collapseWsGo false cs

def collapseWsL (cs : List Char) : List Char := collapseWsGo false cs

def trimL (cs : List Char) : List Char :=
  ((cs.dropWhile isWsChar).reverse.dropWhile isWsChar).reverse

/-- Model of clean from the source: collapse whitespace runs to single
spaces, then trim. -/
def clean (s : String) : String := String.mk (trimL (collapseWsL s.data))

/-- ASCII model of toLowerCase. -/
def toLowerS (s : String) : String := String.mk (s.data.map Char.toLower)

/-- Substring containment, the JS String includes. -/
def strContainsL (needle : List Char) : List Char → Bool
  | [] => needle.isEmpty
  | c :: t => needle.isPrefixOf (c :: t) || strContainsL needle t

def strContains (hay needle : String) : Bool := strContainsL needle.data hay.data

/-- Boundary test used to model \b next to a word character of the
pattern: the neighbouring character, when present, must not be a word
character. -/
def boundaryNo (c? : Option Char) : Bool :=
  match c? with
  | none => true
  | some c => !(isWordChar c)

/-- Occurrence of w starting at this position, delimited by \b on both
sides; valid model of \b for a w whose edge characters are word
characters (true of every keyword the classifier uses). -/
def wordAt (w : List Char) (prev : Option Char) (hay : List Char) : Bool :=
  boundaryNo prev && w.isPrefixOf hay && boundaryNo (hay.drop w.length).head?

def containsWordGo (w : List Char) : Option Char → List Char → Bool
  | prev, [] => wordAt w prev []
  | prev, c :: t => wordAt w prev (c :: t) || containsWordGo w (some c) t

/-- Test of the regex \b w \b anywhere in hay. -/
def containsWord (hay w : String) : Bool := containsWordGo w.data none hay.data

/-- Take exactly n digits from the front. -/
def digitsTake : Nat → List Char → Option (List Char × List Char)
  | 0, cs => some ([], cs)
  | _ + 1, [] => none
  | n + 1, c :: cs =>
    if c.isDigit then (digitsTake n cs).map (fun p => (c :: p.1, p.2)) else none

/-- Greedy alternatives for the regex piece \d with one or two
repetitions: the two-digit take is tried first, as a backtracking
engine would. -/
def d12 (cs : List Char) : List (List Char × List Char) :=
  (digitsTake 2 cs).toList ++ (digitsTake 1 cs).toList

def firstSome {α β : Type} (f : α → Option β) : List α → Option β
  | [] => none
  | a :: t => match f a with | some b => some b | none => firstSome f t

/-- Last stage of the date pattern: the four year digits; pf is the
text already matched. -/
def dateAfterSecondSlash (pf : List Char) (r4 : List Char) : Option (List Char × List Char) :=
  match digitsTake 4 r4 with
  | some (y, r5) => some (pf ++ y, r5)
  | none => none

/-- Middle stage of the date pattern: day digits then a slash. -/
def dateAfterFirst (pf : List Char) (r2 : List Char) : Option (List Char × List Char) :=
  firstSome (fun p2 =>
    match p2.2 with
    | c2 :: r4 => if c2 = '/' then dateAfterSecondSlash (pf ++ p2.1 ++ [c2]) r4 else none
    | [] => none) (d12 r2)

/-- Match of the date regex (one or two digits, slash, one or two
digits, slash, four digits) at the head of the input, returning the
matched text and the rest. -/
def matchDateCore (cs : List Char) : Option (List Char × List Char) :=
  firstSome (fun p1 =>
    match p1.2 with
    | c1 :: r2 => if c1 = '/' then dateAfterFirst (p1.1 ++ [c1]) r2 else none
    | [] => none) (d12 cs)

/-- Leftmost match of the strict date regex, no word boundaries: the
source match call in parseDateTime. -/
def findDate : List Char → Option (List Char)
  | [] => none
  | c :: t =>
    match matchDateCore (c :: t) with
    | some p => some p.1
    | none => findDate t

/-- Leftmost match of the loose date regex with \b at both ends; both
pattern edges are digits, so each \b reduces to the neighbour not being
a word character. -/
def findDateB : Option Char → List Char → Option (List Char)
  | _, [] => none
  | prev, c :: t =>
    match (if boundaryNo prev then matchDateCore (c :: t) else none) with
    | some p => if boundaryNo p.2.head? then some p.1 else findDateB (some c) t
    | none => findDateB (some c) t

def isAP (c : Char) : Bool := c = 'A' || c = 'a' || c = 'P' || c = 'p'

def isMChar (c : Char) : Bool := c = 'M' || c = 'm'

/-- Hyphen, en dash, or em dash. -/
def isDash (c : Char) : Bool := c = '-' || c = '–' || c = '—'

/-- Tail of the time token after the colon: two minute digits,
optional whitespace, the meridiem letters; pf is the text already
matched. -/
def timeAfterColon (pf : List Char) (r2 : List Char) : Option (List Char × List Char) :=
  match digitsTake 2 r2 with
  | some (mn, r3) =>
    match r3.dropWhile isWsChar with
    | a :: m :: r5 =>
      if isAP a && isMChar m then
        some (pf ++ mn ++ r3.takeWhile isWsChar ++ [a, m], r5)
      else none
    | _ => none
  | none => none

/-- Match of one time token (one or two digits, colon, two digits,
optional whitespace, A or P, M, case-insensitive) at the head. -/
def matchTimePart (cs : List Char) : Option (List Char × List Char) :=
  firstSome (fun p1 =>
    match p1.2 with
    | c1 :: r2 => if c1 = ':' then timeAfterColon (p1.1 ++ [c1]) r2 else none
    | [] => none) (d12 cs)

/-- Match of the full time-range regex at the head, returning the two
captured time groups. -/
def matchTimeRange (cs : List Char) : Option (List Char × List Char) :=
  match matchTimePart cs with
  | some (t1, r1) =>
    match r1.dropWhile isWsChar with
    | c :: r3 =>
      if isDash c then
        match matchTimePart (r3.dropWhile isWsChar) with
        | some (t2, _) => some (t1, t2)
        | none => none
      else none
    | [] => none
  | none => none

/-- Leftmost match of the time-range regex anywhere in the text. -/
def findTimeRange : List Char → Option (List Char × List Char)
  | [] => none
  | c :: t =>
    match matchTimeRange (c :: t) with
    | some p => some p
    | none => findTimeRange t

/-- Test of the single time token regex anywhere in the text. -/
def hasTimePat : List Char → Bool
  | [] => false
  | c :: t => (matchTimePart (c :: t)).isSome || hasTimePat t

/-- Result triple of the date/time normalizers; fields startT and endT
model the source fields named start and end. -/
structure DT where
  date : String
  startT : String
  endT : String
deriving DecidableEq, Repr

/-- Strict normalizer parseDateTime: a date token in the date field and
a time range in the time field, or in the date field when the time
field is the empty string (JS falsy fallback).  The captured groups get
their whitespace runs collapsed, as in the source. -/
def parseDateTime (dateText timeText : String) : Option DT :=
  match findDate dateText.data,
        findTimeRange (if timeText = "" then dateText else timeText).data with
  | some d, some ts =>
    some ⟨String.mk d, String.mk (collapseWsL ts.1), String.mk (collapseWsL ts.2)⟩
  | _, _ => none

/-- Loose normalizer parseDateTimeLoose: one combined text blob, date
token bounded by \b. -/
def parseDateTimeLoose (text : String) : Option DT :=
  match findDateB none text.data, findTimeRange text.data with
  | some d, some ts =>
    some ⟨String.mk d, String.mk (collapseWsL ts.1), String.mk (collapseWsL ts.2)⟩
  | _, _ => none

def isLeap (y : Int) : Bool := (y % 4 == 0 && y % 100 != 0) || y % 400 == 0

def daysInMonth (y m : Int) : Int :=
  if m = 2 then (if isLeap y then 29 else 28)
  else if m = 4 ∨ m = 6 ∨ m = 9 ∨ m = 11 then 30
  else 31

/-- Days since 1970-01-01 of a proleptic Gregorian civil date. -/
def daysFromCivil (y m d : Int) : Int :=
  let y2 := if m ≤ 2 then y - 1 else y
  let era := Int.fdiv y2 400
  let yoe := y2 - era * 400
  let mp := Int.emod (m + 9) 12
  let doy := Int.fdiv (153 * mp + 2) 5 + d - 1
  let doe := yoe * 365 + Int.fdiv yoe 4 - Int.fdiv yoe 100 + doy
  era * 146097 + doe - 719468

/-- Milliseconds since the local epoch of a local civil date and a
24-hour local time. -/
def localMs (y mo d h mi : Int) : Int :=
  daysFromCivil y mo d * 86400000 + (h * 60 + mi) * 60000

def listToNat (ds : List Char) : Nat := ds.foldl (fun a c => a * 10 + (c.toNat - 48)) 0

def mkLocalMs (mo da yr hh mi : Nat) (pm : Bool) : Option Int :=
  if 1 ≤ mo ∧ mo ≤ 12 ∧ 1 ≤ da ∧ (da : Int) ≤ daysInMonth yr mo ∧
     1 ≤ hh ∧ hh ≤ 12 ∧ mi ≤ 59 then
    some (localMs yr mo da ((hh % 12) + (if pm then 12 else 0)) mi)
  else none

/-- Model of toISO: the JS Date constructor applied to a string of the
shape date, one space, time as produced by the matchers, interpreted on
the local clock; milliseconds since the local epoch on success, none on
an out-of-range or malformed component (the Invalid Date case). -/
def toISO (s : String) : Option Int :=
  let cs := s.data
  let mo := cs.takeWhile Char.isDigit
  let r1 := cs.dropWhile Char.isDigit
  if mo.length = 0 ∨ mo.length > 2 then none else
  match r1 with
  | '/' :: r2 =>
    let da := r2.takeWhile Char.isDigit
    let r3 := r2.dropWhile Char.isDigit
    if da.length = 0 ∨ da.length > 2 then none else
    match r3 with
    | '/' :: r4 =>
      let yr := r4.takeWhile Char.isDigit
      let r5 := r4.dropWhile Char.isDigit
      if yr.length ≠ 4 then none else
      match r5 with
      | ' ' :: r6 =>
        let hh := r6.takeWhile Char.isDigit
        let r7 := r6.dropWhile Char.isDigit
        if hh.length = 0 ∨ hh.length > 2 then none else
        match r7 with
        | ':' :: r8 =>
          let mi := r8.takeWhile Char.isDigit
          let r9 := r8.dropWhile Char.isDigit
          if mi.length ≠ 2 then none else
          match (if r9.head? = some ' ' then r9.tail else r9) with
          | [a, m] =>
            if isAP a && isMChar m then
              mkLocalMs (listToNat mo) (listToNat da) (listToNat yr)
                (listToNat hh) (listToNat mi) (a = 'P' || a = 'p')
            else none
          | _ => none
        | _ => none
      | _ => none
    | _ => none
  | _ => none

/-- A link element: its text content and its optional href attribute. -/
structure Link where
  linkText : String
  href : Option String
deriving DecidableEq, Repr

/-- A table cell: raw text content and the link elements it contains,
in document order. -/
structure Cell where
  text : String
  links : List Link
deriving DecidableEq, Repr

structure Row where
  cells : List Cell
deriving DecidableEq, Repr

/-- A table: the texts of its thead th cells and its tbody tr rows. -/
structure Table where
  headerCells : List String
  bodyRows : List Row
deriving DecidableEq, Repr

/-- A row-like block matched by the fallback selector list (tr, li,
and class-based row/result/item selectors): raw text and links. -/
structure Block where
  text : String
  links : List Link
deriving DecidableEq, Repr

/-- Document model: its tables and, for the fallback scan, its
row-like blocks, both in document order. -/
structure Html where
  tables : List Table
  blocks : List Block
deriving DecidableEq, Repr

/-- Intermediate extraction record.  The startISO and endISO fields of
the source are ISO strings of valid instants; they are modelled by the
instants themselves, milliseconds since the local epoch. -/
structure RawEvent where
  cal : String
  title : String
  startISO : Int
  endISO : Int
  url : Option String
  location : Option String
deriving DecidableEq, Repr

/-- Diagnostics record.  The source builds it incrementally; absent
keys are modelled by the defaults. -/
structure Diag where
  foundTable : Bool := false
  headers : List String := []
  idx : Option (Int × Int × Int × Int) := none
  fallbackUsed : Bool := false
  fallbackCount : Nat := 0
  fallbackMode : Bool := false
deriving DecidableEq, Repr

/-- Text of the first link in a selection, empty when there is none. -/
def firstLinkText (links : List Link) : String :=
  match links.head? with
  | some l => l.linkText
  | none => ""

/-- Href of the first link that has an href attribute. -/
def firstHref (links : List Link) : Option String :=
  match links.find? (fun l => l.href.isSome) with
  | some l => l.href
  | none => none

/-- Prefix test over the character data of the strings. -/
def strStartsWith (s pre : String) : Bool := pre.data.isPrefixOf s.data

/-- Case-insensitive test of a leading http or https scheme. -/
def startsWithHttp (h : String) : Bool :=
  strStartsWith (toLowerS h) "http://" || strStartsWith (toLowerS h) "https://"

/-- Model of absolutize: a missing or empty href gives null, an
absolute href passes through, an empty base origin passes the href
through, otherwise the origin is prefixed with a slash inserted when
the href does not start with one. -/
def absolutize (href : Option String) (baseOrigin : String) : Option String :=
  match href with
  | none => none
  | some h =>
    if h = "" then none
    else if startsWithHttp h then some h
    else if baseOrigin = "" then some h
    else some (baseOrigin ++ (if strStartsWith h "/" then "" else "/") ++ h)

def headerMatchB (h : String) (keys : List String) : Bool :=
  keys.any (fun k => strContains h k)

def findHeaderGo (keys : List String) : List String → Nat → Int
  | [], _ => -1
  | h :: t, n => if headerMatchB h keys then (n : Int) else findHeaderGo keys t (n + 1)

/-- Model of findHeader: index of the first header whose text contains
some keyword as a substring, -1 when none does. -/
def findHeader (headers keys : List String) : Int := findHeaderGo keys headers 0

def anyWordIn (t : String) (keys : List String) : Bool :=
  keys.any (fun k => containsWord t k)

/-- Model of guessCal: keyword groups tested in fixed order over the
lowercased concatenation of title and location; each group regex bounds
its keywords with \b on both sides. -/
def guessCal (title : String) (loc : Option String) : String :=
  let t := toLowerS (title ++ " " ++ loc.getD "")
  if anyWordIn t ["aqua", "water", "swim", "pool"] then "Aquatics"
  else if anyWordIn t ["pickleball", "basketball", "volleyball", "court"] then "Court Sports"
  else if anyWordIn t ["yoga", "coffee", "teen", "community", "wellness"] then "Community"
  else "Schedule"

def colorForCal (cal : String) : String :=
  if cal = "Aquatics" then "blue"
  else if cal = "Court Sports" then "orange"
  else if cal = "Community" then "pink"
  else "gray"

/-- The fixed palette object; lookup of a key that is not present is
none (in JS the later destructuring of it would throw). -/
def PALETTE (k : String) : Option (String × String × String) :=
  if k = "blue" then some ("bg-blue-100", "text-blue-800", "border-blue-500")
  else if k = "orange" then some ("bg-orange-100", "text-orange-800", "border-orange-500")
  else if k = "pink" then some ("bg-pink-100", "text-pink-800", "border-pink-500")
  else if k = "gray" then some ("bg-gray-200", "text-gray-800", "border-gray-500")
  else none

/-- Qualification test of the table scan: at least three header cells
and at least one body row. -/
def qualifies (t : Table) : Bool :=
  decide (3 ≤ t.headerCells.length) && decide (1 ≤ t.bodyRows.length)

/-- The each-loop of the source: keep the first qualifying table. -/
def selectTable (ts : List Table) : Option Table :=
  ts.foldl (fun acc t => if qualifies t && acc.isNone then some t else acc) none

/-- Cell of a row at a nonnegative index; an out-of-range index is an
empty selection, whose text is empty and which has no links. -/
def cellAt (r : Row) (i : Int) : Cell := r.cells.getD i.toNat ⟨"", []⟩

/-- The activity cell: the activity column when resolved, column 0
otherwise. -/
def actCellOf (r : Row) (iA : Int) : Cell :=
  if iA ≥ 0 then cellAt r iA else cellAt r 0

/-- Row title: the cleaned activity cell text, or, when that is empty,
the cleaned text of the first link of the cell. -/
def rowTitle (r : Row) (iA : Int) : String :=
  let c := actCellOf r iA
  let t0 := clean c.text
  if t0 = "" then clean (firstLinkText c.links) else t0

/-- Row date/time: the strict parse of the mapped cells, retried with
the loose parse over the raw activity cell text. -/
def rowDT (r : Row) (iD iT iA : Int) : Option DT :=
  let dateText := if iD ≥ 0 then clean (cellAt r iD).text else ""
  let timeText := if iT ≥ 0 then clean (cellAt r iT).text else ""
  match parseDateTime dateText timeText with
  | some dt => some dt
  | none => parseDateTimeLoose (actCellOf r iA).text

def rowLoc (r : Row) (iL : Int) : Option String :=
  if iL ≥ 0 then some (clean (cellAt r iL).text) else none

/-- One iteration of the tbody tr loop: none models the early returns
that skip the row. -/
def rowEvent (iD iT iA iL : Int) (baseOrigin : String) (r : Row) : Option RawEvent :=
  if r.cells.length = 0 then none
  else
    let title := rowTitle r iA
    if title = "" then none
    else
      match rowDT r iD iT iA with
      | none => none
      | some dt =>
        match toISO (dt.date ++ " " ++ dt.startT), toISO (dt.date ++ " " ++ dt.endT) with
        | some sMs, some eMs =>
          some { cal := guessCal title (rowLoc r iL), title := title,
                 startISO := sMs, endISO := eMs,
                 url := absolutize (firstHref (actCellOf r iA).links) baseOrigin,
                 location := rowLoc r iL }
        | _, _ => none

/-- Model of parseDetailHtml. -/
def parseDetailHtml (html : Html) (baseOrigin : String) : List RawEvent × Diag :=
  match selectTable html.tables with
  | none => ([], { foundTable := false })
  | some t =>
    let headers := t.headerCells.map (fun h => toLowerS (clean h))
    let iD := findHeader headers ["date"]
    let iT := findHeader headers ["time", "hours", "start"]
    let iA := findHeader headers ["activity", "class", "title", "description", "program", "course"]
    let iL := findHeader headers ["location", "room", "facility"]
    (t.bodyRows.filterMap (rowEvent iD iT iA iL baseOrigin),
     { foundTable := true, headers := headers, idx := some (iD, iT, iA, iL) })

/-- Fallback title line: the first cleaned line of the text that is
nonempty and does not contain a time token, truncated to 160
characters. -/
def firstGoodLine (text : String) : String :=
  match ((text.data.splitOn '\n').map (fun l => clean (String.mk l))).find?
      (fun s => !(s == "") && !(hasTimePat s.data)) with
  | some s => String.mk (s.data.take 160)
  | none => ""

/-- Fallback title: the cleaned first link text, or, when that is
empty, the first good line of the cleaned block text. -/
def blockTitleOf (b : Block) : String :=
  let t0 := clean (firstLinkText b.links)
  if t0 = "" then firstGoodLine (clean b.text) else t0

/-- One iteration of the fallback block loop. -/
def blockEvent (baseOrigin : String) (b : Block) : Option RawEvent :=
  let text := clean b.text
  if (findDate text.data).isNone then none
  else
    match parseDateTimeLoose text with
    | none => none
    | some dt =>
      let title := blockTitleOf b
      if title = "" then none
      else
        match toISO (dt.date ++ " " ++ dt.startT), toISO (dt.date ++ " " ++ dt.endT) with
        | some sMs, some eMs =>
          some { cal := guessCal title none, title := title,
                 startISO := sMs, endISO := eMs,
                 url := absolutize (firstHref b.links) baseOrigin,
                 location := none }
        | _, _ => none

/-- Model of parseFallback. -/
def parseFallback (html : Html) (baseOrigin : String) : List RawEvent × Diag :=
  (html.blocks.filterMap (blockEvent baseOrigin), { fallbackMode := true })

/-- Handler step choosing the raw event list: the fallback result is
used exactly when the structured parser produced nothing, and the
diagnostics record the choice. -/
def extractRaw (html : Html) (baseOrigin : String) : List RawEvent × Diag :=
  let p := parseDetailHtml html baseOrigin
  if p.1.length = 0 then
    let fb := parseFallback html baseOrigin
    (fb.1, { p.2 with fallbackUsed := true, fallbackCount := fb.1.length })
  else p

/-- Model of getMonday: local midnight of the Monday of the week that
contains the instant; getDay has Sunday 0 and 1970-01-01 was a
Thursday. -/
def getMonday (ms : Int) : Int :=
  let days := Int.fdiv ms 86400000
  let wday := Int.emod (days + 4) 7
  let day := Int.emod (wday + 6) 7
  (days - day) * 86400000

/-- Local minutes since midnight of an instant. -/
def minutesOfDay (ms : Int) : Int := Int.emod (Int.fdiv ms 60000) 1440

/-- Day offset of the event start from the week anchor, the floor of
the millisecond difference divided by one day. -/
def dayIndexOf (monday : Int) (ev : RawEvent) : Int :=
  Int.fdiv (ev.startISO - monday) 86400000

structure GridEvent where
  id : String
  name : String
  dayIndex : Int
  startMinutes : Int
  endMinutes : Int
  url : Option String
  color : String × String × String
deriving DecidableEq, Repr

/-- Bucket slug: lowercase the calendar name and remove all
whitespace. -/
def slugOf (cal : String) : String :=
  String.mk ((toLowerS cal).data.filter (fun c => !(isWsChar c)))

/-- Bucket key with the empty-slug fallback of the handler. -/
def bucketKey (cal : String) : String :=
  let s := slugOf cal
  if s = "" then "schedule" else s

/-- One iteration of the handler projection loop over raw events.  The
guards on title and cal model the falsy-field skip; the instant fields
are valid by construction here, so the isNaN re-parse guard of the
source always passes.  The palette lookup defaults are never taken for
classifier-produced names (claim C10); in JS an unknown key would
throw instead. -/
def projectEvent (monday : Int) (ev : RawEvent) : Option (String × String × GridEvent) :=
  if ev.title = "" then none
  else if ev.cal = "" then none
  else
    let dayIndex := dayIndexOf monday ev
    if dayIndex < 0 ∨ dayIndex > 6 then none
    else
      let c := (PALETTE (colorForCal ev.cal)).getD ("", "", "")
      some (bucketKey ev.cal, ev.cal,
        { id := ev.title ++ "-" ++ toString ev.startISO, name := ev.title,
          dayIndex := dayIndex, startMinutes := minutesOfDay ev.startISO,
          endMinutes := minutesOfDay ev.endISO, url := ev.url, color := c })

structure Bucket where
  label : String
  events : List GridEvent
deriving DecidableEq, Repr

/-- Insert into the bucket map, modelled as an association list in
insertion order; the label of a bucket is fixed at creation. -/
def addToBucket : List (String × Bucket) → String → String → GridEvent → List (String × Bucket)
  | [], k, l, g => [(k, ⟨l, [g]⟩)]
  | (k0, b) :: rest, k, l, g =>
    if k0 = k then (k0, ⟨b.label, b.events ++ [g]⟩) :: rest
    else (k0, b) :: addToBucket rest k l g

/-- The CALS building loop of the handler. -/
def buildCals (monday : Int) (evs : List RawEvent) : List (String × Bucket) :=
  evs.foldl (fun cals ev =>
    match projectEvent monday ev with
    | none => cals
    | some klg => addToBucket cals klg.1 klg.2.1 klg.2.2) []

/-- The whole extraction pipeline on fetched HTML: parse (with
fallback), anchor the week at the Monday of the start date, project
onto buckets. -/
def extract (html : Html) (baseOrigin : String) (startMs : Int) : List (String × Bucket) × Diag :=
  let p := extractRaw html baseOrigin
  (buildCals (getMonday startMs) p.1, p.2)

/-! Concrete documents used by example conjuncts and witnesses. -/

def exRow : Row :=
  ⟨[⟨"01/15/2024", []⟩, ⟨"10:00 AM - 11:30 AM", []⟩,
    ⟨"Lap Swim", [⟨"Lap Swim", some "/detail/123"⟩]⟩, ⟨"Pool", []⟩]⟩

def exTable : Table := ⟨["Date", "Time", "Activity", "Location"], [exRow]⟩

def exHtml : Html := ⟨[exTable], []⟩

def exRow2 : Row :=
  ⟨[⟨"Open Gym", []⟩, ⟨"02/01/2024 9:00 AM - 10:00 AM", []⟩, ⟨"Gym A", []⟩]⟩

def exTable2 : Table := ⟨["Class", "Date/Time", "Room"], [exRow2]⟩

def exHtml2 : Html := ⟨[exTable2], []⟩

def exTableBad : Table := ⟨["a", "b"], []⟩

def htmlEmpty : Html := ⟨[], []⟩

def exBlock : Block := ⟨"Open Gym 02/01/2024 9:00 AM - 10:00 AM", [⟨"Open Gym", some "/x"⟩]⟩

def fbHtml : Html := ⟨[], [exBlock]⟩

def rowEmptyTitle : Row :=
  ⟨[⟨"01/15/2024", []⟩, ⟨"10:00 AM - 11:30 AM", []⟩, ⟨" ", []⟩, ⟨"", []⟩]⟩

def evLate : RawEvent :=
  ⟨"Schedule", "Late", localMs 2024 1 21 23 59, localMs 2024 1 21 23 59, none, none⟩

def evNext : RawEvent :=
  ⟨"Schedule", "Next", localMs 2024 1 22 0 0, localMs 2024 1 22 0 0, none, none⟩

/-! Selection of the schedule table. -/

theorem selectTable_go_some (ts : List Table) (t : Table) :
    ts.foldl (fun acc u => if qualifies u && acc.isNone then some u else acc) (some t) = some t := by
  induction ts with
  | nil => rfl
  | cons u us ih => simpa using ih

theorem selectTable_eq_find (ts : List Table) : selectTable ts = ts.find? qualifies := by
  induction ts with
  | nil => rfl
  | cons t us ih =>
    by_cases h : qualifies t
    · rw [List.find?_cons_of_pos us h]
      simp only [selectTable, List.foldl_cons, h, Option.isNone_none, Bool.and_true, if_pos]
      exact selectTable_go_some us t
    · rw [List.find?_cons_of_neg us h]
      simp only [selectTable, List.foldl_cons, Option.isNone_none, Bool.and_true,
        Bool.eq_false_iff.mpr h, if_neg]
      simpa [selectTable] using ih

/-- C2.  For every input document, the structured parser selects the
first table in document order with at least three header cells and at
least one data row; later qualifying tables are ignored; with no
qualifying table the result is the empty event list and diagnostics
with foundTable false. -/
theorem claim2_table_selection :
    (∀ t : Table, qualifies t = true ↔ (3 ≤ t.headerCells.length ∧ 1 ≤ t.bodyRows.length)) ∧
    (∀ ts : List Table, selectTable ts = ts.find? qualifies) ∧
    (∀ (pre post : List Table) (t : Table), (∀ u ∈ pre, qualifies u = false) →
        qualifies t = true → selectTable (pre ++ t :: post) = some t) ∧
    (∀ ts : List Table, (∀ u ∈ ts, qualifies u = false) → selectTable ts = none) ∧
    (∀ html base, selectTable html.tables = none →
        parseDetailHtml html base = ([], { foundTable := false })) ∧
    (∀ html base t, selectTable html.tables = some t →
        (parseDetailHtml html base).2.foundTable = true) := by
  refine ⟨?_, selectTable_eq_find, ?_, ?_, ?_, ?_⟩
  · intro t
    simp [qualifies]
  · intro pre post t hpre ht
    rw [selectTable_eq_find]
    induction pre with
    | nil => exact List.find?_cons_of_pos post ht
    | cons u us ih =>
      rw [List.cons_append, List.find?_cons_of_neg _ (by simp [hpre u (by simp)])]
      exact ih (fun v hv => hpre v (by simp [hv]))
  · intro ts hts
    rw [selectTable_eq_find]
    exact List.find?_eq_none.mpr (fun u hu => by simp [hts u hu])
  · intro html base hnone
    unfold parseDetailHtml
    rw [hnone]
  · intro html base t hsome
    unfold parseDetailHtml
    rw [hsome]

/-- Witness for C2 at concrete tables and a concrete document. -/
theorem claim2_witness :
    selectTable [exTableBad, exTable, exTable2] = some exTable ∧
    parseDetailHtml htmlEmpty "" = ([], { foundTable := false }) := by
  constructor
  · exact claim2_table_selection.2.2.1 [exTableBad] [exTable2] exTable
      (by intro u hu; simp at hu; subst hu; decide) (by decide)
  · exact claim2_table_selection.2.2.2.2.1 htmlEmpty "" (by decide)

/-- C9.  The pipeline is a pure function of its input: running the
extraction twice with the same HTML and options yields equal event
lists, buckets, and diagnostics. -/
theorem claim9_deterministic (html : Html) (base : String) (startMs : Int) :
    extract html base startMs = extract html base startMs ∧
    (extract html base startMs).1 = (extract html base startMs).1 ∧
    (extract html base startMs).2 = (extract html base startMs).2 ∧
    extractRaw html base = extractRaw html base :=
  ⟨rfl, rfl, rfl, rfl⟩

/-- C10.  The classifier is total onto the four calendar names, the
palette lookup through colorForCal always succeeds, the bucket slug is
one of the four fixed non-empty slugs, and the empty-slug fallback of
the handler is never taken for classifier output. -/
theorem claim10_classifier_totality (title : String) (loc : Option String) :
    (guessCal title loc = "Aquatics" ∨ guessCal title loc = "Court Sports" ∨
       guessCal title loc = "Community" ∨ guessCal title loc = "Schedule") ∧
    (PALETTE (colorForCal (guessCal title loc))).isSome = true ∧
    (colorForCal (guessCal title loc) = "blue" ∨ colorForCal (guessCal title loc) = "orange" ∨
       colorForCal (guessCal title loc) = "pink" ∨ colorForCal (guessCal title loc) = "gray") ∧
    (slugOf (guessCal title loc) = "aquatics" ∨ slugOf (guessCal title loc) = "courtsports" ∨
       slugOf (guessCal title loc) = "community" ∨ slugOf (guessCal title loc) = "schedule") ∧
    slugOf (guessCal title loc) ≠ "" ∧
    bucketKey (guessCal title loc) = slugOf (guessCal title loc) := by
  unfold guessCal
  dsimp only
  split_ifs <;> exact (by decide)

/-- C7.  The fallback result is used exactly when the structured parser
yields zero events; otherwise the output is exactly the structured
events and the diagnostics carry no fallback flag. -/
theorem claim7_fallback_iff_empty (html : Html) (base : String) :
    ((parseDetailHtml html base).1 ≠ [] →
        extractRaw html base = parseDetailHtml html base ∧
        (extractRaw html base).2.fallbackUsed = false) ∧
    ((parseDetailHtml html base).1 = [] →
        (extractRaw html base).1 = (parseFallback html base).1 ∧
        (extractRaw html base).2.fallbackUsed = true) ∧
    ((extractRaw html base).2.fallbackUsed = true ↔ (parseDetailHtml html base).1 = []) := by
  have hfu : (parseDetailHtml html base).2.fallbackUsed = false := by
    unfold parseDetailHtml
    cases selectTable html.tables <;> rfl
  have hne : ∀ h : (parseDetailHtml html base).1 ≠ [],
      extractRaw html base = parseDetailHtml html base := by
    intro h
    unfold extractRaw
    rw [if_neg (fun hc => h (List.length_eq_zero.mp hc))]
  have heq : ∀ h : (parseDetailHtml html base).1 = [],
      extractRaw html base = ((parseFallback html base).1,
        { (parseDetailHtml html base).2 with
          fallbackUsed := true
          fallbackCount := (parseFallback html base).1.length }) := by
    intro h
    unfold extractRaw
    rw [if_pos (List.length_eq_zero.mpr h)]
  refine ⟨fun h => ⟨hne h, by rw [hne h]; exact hfu⟩,
          fun h => ⟨by rw [heq h], by rw [heq h]⟩, ?_⟩
  by_cases h : (parseDetailHtml html base).1 = []
  · simp only [h, iff_true]
    rw [heq h]
  · simp only [h, iff_false]
    rw [hne h, hfu]
    simp

/-- Witness for C7: a document whose structured parse succeeds keeps
the structured events, and a table-free document flips the fallback
flag. -/
theorem claim7_witness :
    (extractRaw exHtml "https://example.org").2.fallbackUsed = false ∧
    (extractRaw fbHtml "").2.fallbackUsed = true := by
  constructor
  · exact ((claim7_fallback_iff_empty exHtml "https://example.org").1 (by decide)).2
  · exact ((claim7_fallback_iff_empty fbHtml "").2.1 (by decide)).2

/-- C6.  With the title and calendar guards passed, the projection
keeps a raw event exactly when its day index, the floor of the
millisecond offset from the Monday anchor divided by one day, lies in
0..6; the claimed boundary examples around Monday 2024-01-15 behave as
stated. -/
theorem claim6_day_index_filter :
    (∀ (monday : Int) (ev : RawEvent), ev.title ≠ "" → ev.cal ≠ "" →
        ((projectEvent monday ev).isSome = true ↔
          (0 ≤ dayIndexOf monday ev ∧ dayIndexOf monday ev ≤ 6)) ∧
        dayIndexOf monday ev = Int.fdiv (ev.startISO - monday) 86400000) ∧
    getMonday (localMs 2024 1 15 0 0) = localMs 2024 1 15 0 0 ∧
    dayIndexOf (localMs 2024 1 15 0 0) evLate = 6 ∧
    (projectEvent (localMs 2024 1 15 0 0) evLate).isSome = true ∧
    dayIndexOf (localMs 2024 1 15 0 0) evNext = 7 ∧
    projectEvent (localMs 2024 1 15 0 0) evNext = none := by
  refine ⟨?_, by decide, by decide, by decide, by decide, by decide⟩
  intro monday ev ht hc
  refine ⟨?_, rfl⟩
  unfold projectEvent
  rw [if_neg ht, if_neg hc]
  dsimp only
  split_ifs with hd
  · simp only [Option.isSome_none, Bool.false_eq_true, false_iff]
    omega
  · simp only [Option.isSome_some, true_iff]
    omega

/-- Witness for C6 applying the filter characterization at the included
boundary event. -/
theorem claim6_witness :
    0 ≤ dayIndexOf (localMs 2024 1 15 0 0) evLate ∧
    dayIndexOf (localMs 2024 1 15 0 0) evLate ≤ 6 :=
  ((claim6_day_index_filter.1 (localMs 2024 1 15 0 0) evLate
    (by decide) (by decide)).1).mp (by decide)

/-- Counterexample for C8 as stated: a relative href with an empty base
origin is returned unchanged, while the claim, quantifying over every
base origin, prescribes prefixing with an inserted slash. -/
theorem claim8_counterexample :
    absolutize (some "x") "" = some "x" ∧
    strStartsWith "x" "/" = false ∧
    some "x" ≠ some ("" ++ "/" ++ "x") := by
  decide

/-- C8 amended.  A missing or empty href yields null; an href with a
case-insensitive http or https scheme passes through unchanged; with a
non-empty base origin a relative href is prefixed with the origin,
inserting a slash exactly when the href does not already start with
one; with an empty base origin the href is returned unchanged. -/
theorem claim8_absolutize (base : String) :
    absolutize none base = none ∧
    absolutize (some "") base = none ∧
    (∀ h, startsWithHttp h = true → absolutize (some h) base = some h) ∧
    (∀ h, h ≠ "" → startsWithHttp h = false → base ≠ "" →
        absolutize (some h) base =
          some (base ++ (if strStartsWith h "/" then "" else "/") ++ h)) ∧
    (∀ h, h ≠ "" → startsWithHttp h = false → base = "" →
        absolutize (some h) base = some h) ∧
    absolutize (some "/detail/123") "https://example.org" =
      some "https://example.org/detail/123" := by
  refine ⟨rfl, rfl, ?_, ?_, ?_, by decide⟩
  · intro h hh
    have hne : ¬ h = "" := fun he => absurd (he ▸ hh) (by decide)
    simp only [absolutize]
    rw [if_neg hne, if_pos hh]
  · intro h hne hh hb
    simp only [absolutize]
    rw [if_neg hne, if_neg (by simp [hh]), if_neg hb]
  · intro h hne hh hb
    simp only [absolutize]
    rw [if_neg hne, if_neg (by simp [hh]), if_pos hb]

/-- Witness for C8 at concrete hrefs and origins. -/
theorem claim8_witness :
    absolutize (some "a/b") "https://x.y" = some "https://x.y/a/b" ∧
    absolutize (some "HTTP://z/w") "https://x.y" = some "HTTP://z/w" := by
  constructor
  · have := (claim8_absolutize "https://x.y").2.2.2.1 "a/b" (by decide) (by decide) (by decide)
    simpa using this
  · exact (claim8_absolutize "https://x.y").2.2.1 "HTTP://z/w" (by decide)

/-! Substring occurrence, stated on the raw character data. -/

/-- Containment of k in h as a contiguous substring. -/
def HasSubstr (h k : String) : Prop := ∃ pre post, h.data = pre ++ k.data ++ post

theorem strContainsL_iff (k : List Char) (h : List Char) :
    strContainsL k h = true ↔ ∃ pre post, h = pre ++ k ++ post := by
  induction h with
  | nil =>
    constructor
    · intro hh
      have hk : k = [] := by simpa [strContainsL, List.isEmpty_iff] using hh
      exact ⟨[], [], by simp [hk]⟩
    · rintro ⟨pre, post, hp⟩
      obtain ⟨h1, _⟩ := List.append_eq_nil.mp hp.symm
      obtain ⟨_, h3⟩ := List.append_eq_nil.mp h1
      simp [strContainsL, h3]
  | cons c t ih =>
    constructor
    · intro hh
      have hh2 : k <+: (c :: t) ∨ strContainsL k t = true := by
        simpa [strContainsL, List.isPrefixOf_iff_prefix] using hh
      rcases hh2 with hpre | hrec
      · obtain ⟨post, hpost⟩ := hpre
        exact ⟨[], post, by simp [hpost.symm]⟩
      · obtain ⟨pre, post, hp⟩ := ih.mp hrec
        exact ⟨c :: pre, post, by simp [hp]⟩
    · rintro ⟨pre, post, hp⟩
      cases pre with
      | nil =>
        simp only [List.nil_append] at hp
        have hpre : k.isPrefixOf (c :: t) = true :=
          List.isPrefixOf_iff_prefix.mpr ⟨post, hp.symm⟩
        simp [strContainsL, hpre]
      | cons d pre2 =>
        simp only [List.cons_append, List.cons.injEq] at hp
        obtain ⟨rfl, ht⟩ := hp
        have hrec : strContainsL k t = true := ih.mpr ⟨pre2, post, ht⟩
        simp [strContainsL, hrec]

theorem strContains_iff (h k : String) : strContains h k = true ↔ HasSubstr h k :=
  strContainsL_iff k.data h.data

theorem headerMatchB_iff (h : String) (keys : List String) :
    headerMatchB h keys = true ↔ ∃ k ∈ keys, HasSubstr h k := by
  simp only [headerMatchB, List.any_eq_true, strContains_iff]

theorem findHeaderGo_le (keys : List String) :
    ∀ (hs : List String) (n m : Nat), findHeaderGo keys hs n = (m : Int) → n ≤ m := by
  intro hs
  induction hs with
  | nil =>
    intro n m h
    unfold findHeaderGo at h
    omega
  | cons a t ih =>
    intro n m h
    unfold findHeaderGo at h
    split at h
    · omega
    · have := ih (n + 1) m h
      omega

theorem findHeaderGo_neg_iff (keys : List String) :
    ∀ (hs : List String) (n : Nat),
      findHeaderGo keys hs n = -1 ↔ ∀ h ∈ hs, headerMatchB h keys = false := by
  intro hs
  induction hs with
  | nil =>
    intro n
    simp [findHeaderGo]
  | cons a t ih =>
    intro n
    cases hb : headerMatchB a keys with
    | true =>
      rw [findHeaderGo, if_pos hb]
      constructor
      · intro h
        exact absurd h (by omega)
      · intro h
        have := h a (List.mem_cons_self a t)
        rw [hb] at this
        exact absurd this (by simp)
    | false =>
      rw [findHeaderGo, if_neg (by simp [hb]), ih (n + 1)]
      constructor
      · intro h x hx
        rcases List.mem_cons.mp hx with rfl | hm
        · exact hb
        · exact h x hm
      · intro h x hx
        exact h x (List.mem_cons_of_mem a hx)

theorem findHeaderGo_pos (keys : List String) :
    ∀ (hs : List String) (n j : Nat), findHeaderGo keys hs n = ((n + j : Nat) : Int) →
      j < hs.length ∧ headerMatchB (hs.getD j "") keys = true ∧
        ∀ i, i < j → headerMatchB (hs.getD i "") keys = false := by
  intro hs
  induction hs with
  | nil =>
    intro n j h
    unfold findHeaderGo at h
    exact absurd h (by omega)
  | cons a t ih =>
    intro n j h
    cases hb : headerMatchB a keys with
    | true =>
      rw [findHeaderGo, if_pos hb] at h
      have hj : j = 0 := by omega
      subst hj
      exact ⟨by simp, by simpa using hb, fun i hi => absurd hi (by omega)⟩
    | false =>
      rw [findHeaderGo, if_neg (by simp [hb])] at h
      have hle := findHeaderGo_le keys t (n + 1) (n + j) h
      have h2 : findHeaderGo keys t (n + 1) = (((n + 1) + (j - 1) : Nat) : Int) := by
        rw [h]
        congr 1
        omega
      obtain ⟨hlen, hmatch, hfirst⟩ := ih (n + 1) (j - 1) h2
      refine ⟨by simp; omega, ?_, ?_⟩
      · have hg : (a :: t).getD j "" = t.getD (j - 1) "" := by
          cases j with
          | zero => omega
          | succ jj => simp
        rw [hg]
        exact hmatch
      · intro i hi
        cases i with
        | zero => simpa using hb
        | succ ii =>
          have hg : (a :: t).getD (ii + 1) "" = t.getD ii "" := by simp
          rw [hg]
          exact hfirst ii (by omega)

/-- C5.  Each column role resolves to the first header containing one
of its keywords as a substring, to -1 when no header matches, the
activity role falls back to column 0 when unresolved, and the two
example header lists resolve as the claim states. -/
theorem claim5_header_resolution :
    (∀ headers keys, findHeader headers keys = -1 ↔
        ∀ h ∈ headers, ∀ k ∈ keys, ¬ HasSubstr h k) ∧
    (∀ headers keys (j : Nat), findHeader headers keys = (j : Int) →
        j < headers.length ∧ (∃ k ∈ keys, HasSubstr (headers.getD j "") k) ∧
        ∀ i, i < j → ∀ k ∈ keys, ¬ HasSubstr (headers.getD i "") k) ∧
    (∀ (r : Row) (i : Int), i < 0 → actCellOf r i = cellAt r 0) ∧
    (parseDetailHtml exHtml "").2.idx = some (0, 1, 2, 3) ∧
    (parseDetailHtml exHtml2 "").2.idx = some (1, 1, 0, 2) := by
  refine ⟨?_, ?_, ?_, by decide, by decide⟩
  · intro headers keys
    rw [findHeader, findHeaderGo_neg_iff keys headers 0]
    constructor
    · intro h x hx k hk hsub
      have ht := (headerMatchB_iff x keys).mpr ⟨k, hk, hsub⟩
      rw [h x hx] at ht
      exact absurd ht (by simp)
    · intro h x hx
      cases hb : headerMatchB x keys with
      | false => rfl
      | true =>
        obtain ⟨k, hk, hsub⟩ := (headerMatchB_iff x keys).mp hb
        exact absurd hsub (h x hx k hk)
  · intro headers keys j h
    obtain ⟨h1, h2, h3⟩ := findHeaderGo_pos keys headers 0 j (by simpa using h)
    refine ⟨h1, (headerMatchB_iff _ _).mp h2, ?_⟩
    intro i hi k hk hsub
    have ht := (headerMatchB_iff _ keys).mpr ⟨k, hk, hsub⟩
    rw [h3 i hi] at ht
    exact absurd ht (by simp)
  · intro r i hi
    unfold actCellOf
    rw [if_neg (by omega)]

/-- Witness for C5 applying the resolution characterization at the
example header list with the activity keyword list. -/
theorem claim5_witness :
    0 < (["class", "date/time", "room"] : List String).length ∧
    (∃ k ∈ (["activity", "class", "title", "description", "program", "course"] : List String),
        HasSubstr ((["class", "date/time", "room"] : List String).getD 0 "") k) ∧
    ∀ i, i < 0 →
      ∀ k ∈ (["activity", "class", "title", "description", "program", "course"] : List String),
        ¬ HasSubstr ((["class", "date/time", "room"] : List String).getD i "") k :=
  claim5_header_resolution.2.1 ["class", "date/time", "room"]
    ["activity", "class", "title", "description", "program", "course"] 0 (by decide)

/-! Whole-word occurrence, the meaning of a keyword bounded by the
regex \b on both sides. -/

/-- Occurrence of w in s as a whole word: delimited on each side by a
non-word character or the string edge. -/
def WordOccur (s w : String) : Prop :=
  ∃ pre post, s.data = pre ++ w.data ++ post ∧
    (∀ c, pre.getLast? = some c → isWordChar c = false) ∧
    (∀ c, post.head? = some c → isWordChar c = false)

theorem wordAt_iff (w : List Char) (prev : Option Char) (s : List Char) :
    wordAt w prev s = true ↔
      (boundaryNo prev = true ∧ ∃ post, s = w ++ post ∧
        (∀ c, post.head? = some c → isWordChar c = false)) := by
  constructor
  · intro h
    rw [wordAt, Bool.and_eq_true, Bool.and_eq_true] at h
    obtain ⟨⟨h1, h2⟩, h3⟩ := h
    obtain ⟨post, hpost⟩ := List.isPrefixOf_iff_prefix.mp h2
    refine ⟨h1, post, hpost.symm, ?_⟩
    intro c hc
    rw [← hpost, List.drop_left, hc] at h3
    simpa [boundaryNo] using h3
  · rintro ⟨h1, post, rfl, h2⟩
    rw [wordAt, Bool.and_eq_true, Bool.and_eq_true]
    refine ⟨⟨h1, List.isPrefixOf_iff_prefix.mpr ⟨post, rfl⟩⟩, ?_⟩
    rw [List.drop_left]
    cases hp : post.head? with
    | none => simp [boundaryNo]
    | some c => simp [boundaryNo, h2 c hp]

theorem containsWordGo_iff (w : List Char) :
    ∀ (s : List Char) (prev : Option Char),
      containsWordGo w prev s = true ↔
        ∃ pre post, s = pre ++ w ++ post ∧
          (pre.getLast? = none → boundaryNo prev = true) ∧
          (∀ c, pre.getLast? = some c → isWordChar c = false) ∧
          (∀ c, post.head? = some c → isWordChar c = false) := by
  intro s
  induction s with
  | nil =>
    intro prev
    rw [containsWordGo, wordAt_iff]
    constructor
    · rintro ⟨h1, post, hpost, h2⟩
      obtain ⟨hw, hp⟩ := List.append_eq_nil.mp hpost.symm
      exact ⟨[], [], by simp [hw], fun _ => h1, by simp, by simp⟩
    · rintro ⟨pre, post, hs, hb1, hb2, hb3⟩
      obtain ⟨h1, h2⟩ := List.append_eq_nil.mp hs.symm
      obtain ⟨hpre, hw⟩ := List.append_eq_nil.mp h1
      refine ⟨hb1 (by simp [hpre]), [], by simp [hw], by simp⟩
  | cons c t ih =>
    intro prev
    rw [containsWordGo, Bool.or_eq_true, wordAt_iff, ih (some c)]
    constructor
    · rintro (⟨h1, post, hpost, h2⟩ | ⟨pre, post, hs, hb1, hb2, hb3⟩)
      · exact ⟨[], post, by simp [hpost], fun _ => h1, by simp, h2⟩
      · refine ⟨c :: pre, post, by simp [hs], by simp, ?_, hb3⟩
        intro d hd
        cases pre with
        | nil =>
          rw [List.getLast?_singleton] at hd
          obtain rfl : c = d := by injection hd
          have hb := hb1 rfl
          simpa [boundaryNo] using hb
        | cons e u =>
          rw [List.getLast?_cons_cons] at hd
          exact hb2 d hd
    · rintro ⟨pre, post, hs, hb1, hb2, hb3⟩
      cases pre with
      | nil =>
        left
        simp only [List.nil_append] at hs
        exact ⟨hb1 rfl, post, hs, hb3⟩
      | cons e pre2 =>
        right
        simp only [List.cons_append, List.cons.injEq] at hs
        obtain ⟨rfl, ht⟩ := hs
        refine ⟨pre2, post, ht, ?_, ?_, hb3⟩
        · intro hn
          have hp2 : pre2 = [] := List.getLast?_eq_none_iff.mp hn
          subst hp2
          have := hb2 c (by simp)
          simp [boundaryNo, this]
        · intro d hd
          apply hb2 d
          cases pre2 with
          | nil => simp at hd
          | cons f u =>
            rw [List.getLast?_cons_cons]
            exact hd

theorem containsWord_iff (hay w : String) :
    containsWord hay w = true ↔ WordOccur hay w := by
  rw [containsWord, containsWordGo_iff w.data hay.data none]
  constructor
  · rintro ⟨pre, post, hs, _, hb2, hb3⟩
    exact ⟨pre, post, hs, hb2, hb3⟩
  · rintro ⟨pre, post, hs, hb2, hb3⟩
    exact ⟨pre, post, hs, fun _ => rfl, hb2, hb3⟩

theorem anyWordIn_iff (t : String) (keys : List String) :
    anyWordIn t keys = true ↔ ∃ k ∈ keys, WordOccur t k := by
  simp only [anyWordIn, List.any_eq_true, containsWord_iff]

/-- Aquatics keyword group matched as whole words. -/
def aquaticsMatch (t : String) : Prop :=
  ∃ k ∈ (["aqua", "water", "swim", "pool"] : List String), WordOccur t k

/-- Court Sports keyword group matched as whole words. -/
def courtMatch (t : String) : Prop :=
  ∃ k ∈ (["pickleball", "basketball", "volleyball", "court"] : List String), WordOccur t k

/-- Community keyword group matched as whole words. -/
def communityMatch (t : String) : Prop :=
  ∃ k ∈ (["yoga", "coffee", "teen", "community", "wellness"] : List String), WordOccur t k

/-- Counterexample for C4 as stated: the lowercased concatenation for
title Aquatics contains the keyword aqua as a substring, so the claim
prescribes Aquatics, but the classifier requires whole-word matches and
returns Schedule. -/
theorem claim4_counterexample :
    strContains (toLowerS ("Aquatics" ++ " " ++ (none : Option String).getD "")) "aqua" = true ∧
    guessCal "Aquatics" none = "Schedule" ∧
    guessCal "Aquatics" none ≠ "Aquatics" := by
  decide

/-- C4 amended.  The classifier lowercases the concatenation of title
and location and tests the four keyword groups in fixed order, each
keyword matched as a whole word (bounded by non-word characters or the
string edges, the regex \b); the first matching group wins, and the
claimed example still classifies as Aquatics. -/
theorem claim4_word_boundary_classifier (title : String) (loc : Option String) :
    (guessCal title loc = "Aquatics" ↔
        aquaticsMatch (toLowerS (title ++ " " ++ loc.getD ""))) ∧
    (guessCal title loc = "Court Sports" ↔
        (¬ aquaticsMatch (toLowerS (title ++ " " ++ loc.getD "")) ∧
          courtMatch (toLowerS (title ++ " " ++ loc.getD "")))) ∧
    (guessCal title loc = "Community" ↔
        (¬ aquaticsMatch (toLowerS (title ++ " " ++ loc.getD "")) ∧
          ¬ courtMatch (toLowerS (title ++ " " ++ loc.getD "")) ∧
          communityMatch (toLowerS (title ++ " " ++ loc.getD "")))) ∧
    (guessCal title loc = "Schedule" ↔
        (¬ aquaticsMatch (toLowerS (title ++ " " ++ loc.getD "")) ∧
          ¬ courtMatch (toLowerS (title ++ " " ++ loc.getD "")) ∧
          ¬ communityMatch (toLowerS (title ++ " " ++ loc.getD "")))) ∧
    guessCal "Aqua Basketball Clinic" none = "Aquatics" := by
  have haq : ∀ t, aquaticsMatch t ↔ anyWordIn t ["aqua", "water", "swim", "pool"] = true :=
    fun t => Iff.symm (anyWordIn_iff t _)
  have hco : ∀ t, courtMatch t ↔
      anyWordIn t ["pickleball", "basketball", "volleyball", "court"] = true :=
    fun t => Iff.symm (anyWordIn_iff t _)
  have hcm : ∀ t, communityMatch t ↔
      anyWordIn t ["yoga", "coffee", "teen", "community", "wellness"] = true :=
    fun t => Iff.symm (anyWordIn_iff t _)
  have hne1 : ("Aquatics" : String) ≠ "Court Sports" := by decide
  have hne2 : ("Aquatics" : String) ≠ "Community" := by decide
  have hne3 : ("Aquatics" : String) ≠ "Schedule" := by decide
  have hne4 : ("Court Sports" : String) ≠ "Community" := by decide
  have hne5 : ("Court Sports" : String) ≠ "Schedule" := by decide
  have hne6 : ("Community" : String) ≠ "Schedule" := by decide
  refine ⟨?_, ?_, ?_, ?_, by decide⟩ <;>
  · rw [guessCal]
    simp only [haq, hco, hcm]
    cases h1 : anyWordIn (toLowerS (title ++ " " ++ loc.getD ""))
        ["aqua", "water", "swim", "pool"] with
    | true => simp [h1, hne1, hne2, hne3, hne1.symm, hne2.symm, hne3.symm]
    | false =>
      cases h2 : anyWordIn (toLowerS (title ++ " " ++ loc.getD ""))
          ["pickleball", "basketball", "volleyball", "court"] with
      | true => simp [h1, h2, hne1, hne4, hne5, hne1.symm, hne4.symm, hne5.symm]
      | false =>
        cases h3 : anyWordIn (toLowerS (title ++ " " ++ loc.getD ""))
            ["yoga", "coffee", "teen", "community", "wellness"] with
        | true => simp [h1, h2, h3, hne2, hne4, hne6, hne2.symm, hne4.symm, hne6.symm]
        | false => simp [h1, h2, h3, hne3, hne5, hne6, hne3.symm, hne5.symm, hne6.symm]

/-! Well-formedness of emitted raw events. -/

theorem rowEvent_skip_title (iD iT iA iL : Int) (base : String) (r : Row)
    (h : rowTitle r iA = "") : rowEvent iD iT iA iL base r = none := by
  unfold rowEvent
  by_cases h0 : r.cells.length = 0
  · rw [if_pos h0]
  · rw [if_neg h0]
    dsimp only
    rw [if_pos h]

theorem rowEvent_skip_dt (iD iT iA iL : Int) (base : String) (r : Row)
    (h : rowDT r iD iT iA = none) : rowEvent iD iT iA iL base r = none := by
  unfold rowEvent
  by_cases h0 : r.cells.length = 0
  · rw [if_pos h0]
  · rw [if_neg h0]
    dsimp only
    by_cases h1 : rowTitle r iA = ""
    · rw [if_pos h1]
    · rw [if_neg h1, h]

theorem rowEvent_skip_iso (iD iT iA iL : Int) (base : String) (r : Row) (dt : DT)
    (h : rowDT r iD iT iA = some dt)
    (hiso : toISO (dt.date ++ " " ++ dt.startT) = none ∨
      toISO (dt.date ++ " " ++ dt.endT) = none) :
    rowEvent iD iT iA iL base r = none := by
  unfold rowEvent
  by_cases h0 : r.cells.length = 0
  · rw [if_pos h0]
  · rw [if_neg h0]
    dsimp only
    by_cases h1 : rowTitle r iA = ""
    · rw [if_pos h1]
    · rw [if_neg h1, h]
      dsimp only
      rcases hiso with hi | hi
      · rw [hi]
      · rw [hi]
        cases toISO (dt.date ++ " " ++ dt.startT) <;> rfl

theorem rowEvent_some (iD iT iA iL : Int) (base : String) (r : Row) (ev : RawEvent)
    (h : rowEvent iD iT iA iL base r = some ev) :
    ev.title = rowTitle r iA ∧ ev.title ≠ "" ∧
      ∃ dt : DT, rowDT r iD iT iA = some dt ∧
        toISO (dt.date ++ " " ++ dt.startT) = some ev.startISO ∧
        toISO (dt.date ++ " " ++ dt.endT) = some ev.endISO := by
  unfold rowEvent at h
  by_cases h0 : r.cells.length = 0
  · rw [if_pos h0] at h
    exact absurd h (by simp)
  · rw [if_neg h0] at h
    dsimp only at h
    by_cases h1 : rowTitle r iA = ""
    · rw [if_pos h1] at h
      exact absurd h (by simp)
    · rw [if_neg h1] at h
      cases hdt : rowDT r iD iT iA with
      | none =>
        rw [hdt] at h
        exact absurd h (by simp)
      | some dt =>
        rw [hdt] at h
        dsimp only at h
        cases hs : toISO (dt.date ++ " " ++ dt.startT) with
        | none =>
          rw [hs] at h
          cases he : toISO (dt.date ++ " " ++ dt.endT) <;> rw [he] at h <;>
            exact absurd h (by simp)
        | some sMs =>
          rw [hs] at h
          cases he : toISO (dt.date ++ " " ++ dt.endT) with
          | none =>
            rw [he] at h
            exact absurd h (by simp)
          | some eMs =>
            rw [he] at h
            cases Option.some.inj h
            exact ⟨rfl, h1, dt, rfl, hs, he⟩

theorem blockEvent_skip_title (base : String) (b : Block)
    (h : blockTitleOf b = "") : blockEvent base b = none := by
  unfold blockEvent
  dsimp only
  by_cases h0 : (findDate (clean b.text).data).isNone = true
  · rw [if_pos h0]
  · rw [if_neg h0]
    cases parseDateTimeLoose (clean b.text) with
    | none => rfl
    | some dt =>
      dsimp only
      rw [if_pos h]

theorem blockEvent_skip_dt (base : String) (b : Block)
    (h : parseDateTimeLoose (clean b.text) = none) : blockEvent base b = none := by
  unfold blockEvent
  dsimp only
  by_cases h0 : (findDate (clean b.text).data).isNone = true
  · rw [if_pos h0]
  · rw [if_neg h0, h]

theorem blockEvent_some (base : String) (b : Block) (ev : RawEvent)
    (h : blockEvent base b = some ev) :
    ev.title = blockTitleOf b ∧ ev.title ≠ "" ∧
      ∃ dt : DT, parseDateTimeLoose (clean b.text) = some dt ∧
        toISO (dt.date ++ " " ++ dt.startT) = some ev.startISO ∧
        toISO (dt.date ++ " " ++ dt.endT) = some ev.endISO := by
  unfold blockEvent at h
  dsimp only at h
  by_cases h0 : (findDate (clean b.text).data).isNone = true
  · rw [if_pos h0] at h
    exact absurd h (by simp)
  · rw [if_neg h0] at h
    cases hdt : parseDateTimeLoose (clean b.text) with
    | none =>
      rw [hdt] at h
      exact absurd h (by simp)
    | some dt =>
      rw [hdt] at h
      dsimp only at h
      by_cases h1 : blockTitleOf b = ""
      · rw [if_pos h1] at h
        exact absurd h (by simp)
      · rw [if_neg h1] at h
        cases hs : toISO (dt.date ++ " " ++ dt.startT) with
        | none =>
          rw [hs] at h
          cases he : toISO (dt.date ++ " " ++ dt.endT) <;> rw [he] at h <;>
            exact absurd h (by simp)
        | some sMs =>
          rw [hs] at h
          cases he : toISO (dt.date ++ " " ++ dt.endT) with
          | none =>
            rw [he] at h
            exact absurd h (by simp)
          | some eMs =>
            rw [he] at h
            cases Option.some.inj h
            exact ⟨rfl, h1, dt, rfl, hs, he⟩

/-- C1.  Every raw event either parser emits has a non-empty title and
two successfully parsed instants, and a row or block whose title
resolves empty, or whose date/time text fails to parse, or whose
combined strings fail the instant parse, contributes nothing to the
output and raises no error (the iteration functions are total and
return none). -/
theorem claim1_raw_events_wellformed :
    (∀ html base ev, ev ∈ (parseDetailHtml html base).1 →
        ev.title ≠ "" ∧ ∃ dt : DT,
          toISO (dt.date ++ " " ++ dt.startT) = some ev.startISO ∧
          toISO (dt.date ++ " " ++ dt.endT) = some ev.endISO) ∧
    (∀ html base ev, ev ∈ (parseFallback html base).1 →
        ev.title ≠ "" ∧ ∃ dt : DT,
          toISO (dt.date ++ " " ++ dt.startT) = some ev.startISO ∧
          toISO (dt.date ++ " " ++ dt.endT) = some ev.endISO) ∧
    (∀ iD iT iA iL base r, rowTitle r iA = "" → rowEvent iD iT iA iL base r = none) ∧
    (∀ iD iT iA iL base r, rowDT r iD iT iA = none → rowEvent iD iT iA iL base r = none) ∧
    (∀ iD iT iA iL base r dt, rowDT r iD iT iA = some dt →
        (toISO (dt.date ++ " " ++ dt.startT) = none ∨
          toISO (dt.date ++ " " ++ dt.endT) = none) →
        rowEvent iD iT iA iL base r = none) ∧
    (∀ base b, blockTitleOf b = "" → blockEvent base b = none) ∧
    (∀ base b, parseDateTimeLoose (clean b.text) = none → blockEvent base b = none) := by
  refine ⟨?_, ?_, rowEvent_skip_title, rowEvent_skip_dt, rowEvent_skip_iso,
    blockEvent_skip_title, blockEvent_skip_dt⟩
  · intro html base ev h
    unfold parseDetailHtml at h
    cases hsel : selectTable html.tables with
    | none =>
      rw [hsel] at h
      exact absurd h (by simp)
    | some t =>
      rw [hsel] at h
      dsimp only at h
      obtain ⟨r, _, hre⟩ := List.mem_filterMap.mp h
      obtain ⟨_, hne, dt, _, hs, he⟩ := rowEvent_some _ _ _ _ _ _ _ hre
      exact ⟨hne, dt, hs, he⟩
  · intro html base ev h
    unfold parseFallback at h
    dsimp only at h
    obtain ⟨b, _, hbe⟩ := List.mem_filterMap.mp h
    obtain ⟨_, hne, dt, _, hs, he⟩ := blockEvent_some _ _ _ hbe
    exact ⟨hne, dt, hs, he⟩

/-- The single event the example table produces. -/
def exEv : RawEvent :=
  ⟨"Aquatics", "Lap Swim", localMs 2024 1 15 10 0, localMs 2024 1 15 11 30,
    some "https://example.org/detail/123", some "Pool"⟩

/-- Witness for C1: the example event is emitted with a non-empty
title, and a row with a blank activity cell and no link is skipped. -/
theorem claim1_witness :
    exEv.title ≠ "" ∧ rowEvent 0 1 2 3 "" rowEmptyTitle = none :=
  ⟨(claim1_raw_events_wellformed.1 exHtml "https://example.org" exEv (by decide)).1,
   claim1_raw_events_wellformed.2.2.1 0 1 2 3 "" rowEmptyTitle (by decide)⟩

/-! Shape of the tokens the date and time regexes accept, and the
proof that the scanners find a match exactly when the text contains
such a token. -/

/-- A run of digits with length between a and b. -/
def DigitsLen (l : List Char) (a b : Nat) : Prop :=
  l.all Char.isDigit = true ∧ a ≤ l.length ∧ l.length ≤ b

/-- Text matched by the date regex: one or two digits, slash, one or
two digits, slash, four digits. -/
def DateTok (tok : List Char) : Prop :=
  ∃ m d y, tok = m ++ '/' :: (d ++ '/' :: y) ∧
    DigitsLen m 1 2 ∧ DigitsLen d 1 2 ∧ DigitsLen y 4 4

/-- Text matched by one captured time group: one or two digits, colon,
two digits, optional whitespace, A or P then M in either case. -/
def TimeTok (tok : List Char) : Prop :=
  ∃ h mn w a m, tok = h ++ ':' :: (mn ++ w ++ [a, m]) ∧
    DigitsLen h 1 2 ∧ DigitsLen mn 2 2 ∧ w.all isWsChar = true ∧
    isAP a = true ∧ isMChar m = true

/-- Text matched by the whole time-range regex: two time tokens around
a dash with optional whitespace. -/
def TimeRangeTok (tok : List Char) : Prop :=
  ∃ t1 w1 dsh w2 t2, tok = t1 ++ w1 ++ dsh :: (w2 ++ t2) ∧ TimeTok t1 ∧ TimeTok t2 ∧
    w1.all isWsChar = true ∧ w2.all isWsChar = true ∧ isDash dsh = true

/-- The text contains a token of the given shape. -/
def ContainsTok (P : List Char → Prop) (s : String) : Prop :=
  ∃ pre tok post, s.data = pre ++ tok ++ post ∧ P tok

theorem isWsChar_of_isAP (a : Char) (h : isAP a = true) : isWsChar a = false := by
  have hc : a = 'A' ∨ a = 'a' ∨ a = 'P' ∨ a = 'p' := by simpa [isAP, or_assoc] using h
  rcases hc with rfl | rfl | rfl | rfl <;> decide

theorem isWsChar_of_isDash (c : Char) (h : isDash c = true) : isWsChar c = false := by
  have hc : c = '-' ∨ c = '–' ∨ c = '—' := by simpa [isDash, or_assoc] using h
  rcases hc with rfl | rfl | rfl <;> decide

theorem isWsChar_of_isDigit (c : Char) (h : c.isDigit = true) : isWsChar c = false := by
  cases hw : isWsChar c
  · rfl
  · exfalso
    have hc : c = ' ' ∨ c = '\t' ∨ c = '\n' ∨ c = '\r' ∨ c = '\u000B' ∨ c = '\u000C' := by
      simpa [isWsChar, or_assoc] using hw
    rcases hc with rfl | rfl | rfl | rfl | rfl | rfl <;> exact absurd h (by decide)

theorem digitsTake_some (n : Nat) :
    ∀ (cs d r : List Char), digitsTake n cs = some (d, r) →
      cs = d ++ r ∧ d.length = n ∧ d.all Char.isDigit = true := by
  induction n with
  | zero =>
    intro cs d r h
    rw [digitsTake] at h
    obtain ⟨rfl, rfl⟩ := Prod.mk.injEq .. ▸ (Option.some.inj h)
    exact ⟨rfl, rfl, rfl⟩
  | succ n ih =>
    intro cs d r h
    cases cs with
    | nil => exact absurd h (by simp [digitsTake])
    | cons c t =>
      rw [digitsTake] at h
      by_cases hc : c.isDigit = true
      · rw [if_pos hc] at h
        cases hdt : digitsTake n t with
        | none =>
          rw [hdt] at h
          exact absurd h (by simp)
        | some p =>
          rw [hdt] at h
          simp only [Option.map_some'] at h
          obtain ⟨hd, hr⟩ := Prod.mk.injEq .. ▸ (Option.some.inj h)
          obtain ⟨h1, h2, h3⟩ := ih t p.1 p.2 (by rw [hdt])
          subst hd
          subst hr
          refine ⟨by simp [h1], by simp [h2], by simp [hc, h3]⟩
      · rw [if_neg hc] at h
        exact absurd h (by simp)

theorem digitsTake_append (d : List Char) :
    ∀ r, d.all Char.isDigit = true → digitsTake d.length (d ++ r) = some (d, r) := by
  induction d with
  | nil => intro r _; rfl
  | cons c t ih =>
    intro r hall
    have hc : c.isDigit = true ∧ t.all Char.isDigit = true := by simpa using hall
    rw [List.length_cons, List.cons_append, digitsTake, if_pos hc.1, ih r hc.2]
    rfl

theorem digitsTake_one (a : Char) (r : List Char) (ha : a.isDigit = true) :
    digitsTake 1 (a :: r) = some ([a], r) := by
  simpa using digitsTake_append [a] r (by simp [ha])

theorem digitsTake_two (a b : Char) (r : List Char) (ha : a.isDigit = true)
    (hb : b.isDigit = true) : digitsTake 2 (a :: b :: r) = some ([a, b], r) := by
  simpa using digitsTake_append [a, b] r (by simp [ha, hb])

theorem digitsTake_two_fail (a c : Char) (r : List Char) (hc : c.isDigit = false) :
    digitsTake 2 (a :: c :: r) = none := by
  by_cases ha : a.isDigit = true
  · rw [digitsTake, if_pos ha, digitsTake, if_neg (by simp [hc])]
    rfl
  · rw [digitsTake, if_neg ha]

theorem firstSome_some {α β : Type} (f : α → Option β) :
    ∀ (l : List α) (b : β), firstSome f l = some b → ∃ a ∈ l, f a = some b := by
  intro l
  induction l with
  | nil =>
    intro b h
    exact absurd h (by rw [firstSome]; simp)
  | cons a t ih =>
    intro b h
    rw [firstSome] at h
    cases hf : f a with
    | some c =>
      rw [hf] at h
      exact ⟨a, by simp, by rw [hf, Option.some.inj h]⟩
    | none =>
      rw [hf] at h
      obtain ⟨x, hx, hfx⟩ := ih b h
      exact ⟨x, by simp [hx], hfx⟩

theorem d12_mem (cs : List Char) (p : List Char × List Char) (h : p ∈ d12 cs) :
    digitsTake 2 cs = some p ∨ digitsTake 1 cs = some p := by
  rcases List.mem_append.mp h with h1 | h1
  · exact Or.inl (Option.mem_toList.mp h1)
  · exact Or.inr (Option.mem_toList.mp h1)

theorem takeWhile_all_append (p : Char → Bool) (x : Char) (y : List Char)
    (hx : p x = false) :
    ∀ w : List Char, w.all p = true →
      (w ++ x :: y).takeWhile p = w ∧ (w ++ x :: y).dropWhile p = x :: y := by
  intro w
  induction w with
  | nil =>
    intro _
    constructor
    · simp [List.takeWhile_cons, hx]
    · simp [List.dropWhile_cons, hx]
  | cons c t ih =>
    intro hall
    have hc : p c = true ∧ t.all p = true := by simpa using hall
    obtain ⟨ih1, ih2⟩ := ih hc.2
    constructor
    · rw [List.cons_append, List.takeWhile_cons, hc.1]
      simp [ih1]
    · rw [List.cons_append, List.dropWhile_cons, hc.1]
      simpa using ih2

theorem len12_cases (l : List Char) (h1 : 1 ≤ l.length) (h2 : l.length ≤ 2) :
    (∃ a, l = [a]) ∨ ∃ a b, l = [a, b] := by
  cases l with
  | nil => simp at h1
  | cons a t =>
    cases t with
    | nil => exact Or.inl ⟨a, rfl⟩
    | cons b u =>
      cases u with
      | nil => exact Or.inr ⟨a, b, rfl⟩
      | cons c v =>
        exfalso
        simp only [List.length_cons] at h2
        omega

theorem dateAfterSecondSlash_some (pf r4 m r : List Char)
    (h : dateAfterSecondSlash pf r4 = some (m, r)) :
    ∃ y, m = pf ++ y ∧ r4 = y ++ r ∧ DigitsLen y 4 4 := by
  unfold dateAfterSecondSlash at h
  cases hdt : digitsTake 4 r4 with
  | none =>
    rw [hdt] at h
    exact absurd h (by simp)
  | some q =>
    rw [hdt] at h
    dsimp only at h
    obtain ⟨hm, hr⟩ := Prod.mk.injEq .. ▸ Option.some.inj h
    obtain ⟨h1, h2, h3⟩ := digitsTake_some 4 r4 q.1 q.2 (by rw [hdt])
    exact ⟨q.1, hm.symm, by rw [h1, hr], ⟨h3, by omega, by omega⟩⟩

theorem dateAfterSecondSlash_complete (pf y rr : List Char) (hy : DigitsLen y 4 4) :
    dateAfterSecondSlash pf (y ++ rr) = some (pf ++ y, rr) := by
  obtain ⟨hd, h1, h2⟩ := hy
  have hlen : y.length = 4 := by omega
  unfold dateAfterSecondSlash
  rw [← hlen, digitsTake_append y rr hd]

theorem dateAfterFirst_some (pf r2 m r : List Char)
    (h : dateAfterFirst pf r2 = some (m, r)) :
    ∃ g y, m = pf ++ g ++ '/' :: y ∧ r2 = g ++ '/' :: (y ++ r) ∧
      DigitsLen g 1 2 ∧ DigitsLen y 4 4 := by
  unfold dateAfterFirst at h
  obtain ⟨p2, hmem, hf⟩ := firstSome_some _ _ _ h
  have hp2 := d12_mem r2 p2 hmem
  have hsplit : r2 = p2.1 ++ p2.2 ∧ (p2.1.length = 2 ∨ p2.1.length = 1) ∧
      p2.1.all Char.isDigit = true := by
    rcases hp2 with hh | hh
    · obtain ⟨a, b, c⟩ := digitsTake_some 2 r2 p2.1 p2.2 (by rw [hh])
      exact ⟨a, Or.inl b, c⟩
    · obtain ⟨a, b, c⟩ := digitsTake_some 1 r2 p2.1 p2.2 (by rw [hh])
      exact ⟨a, Or.inr b, c⟩
  cases hc : p2.2 with
  | nil =>
    rw [hc] at hf
    exact absurd hf (by simp)
  | cons c2 r4 =>
    rw [hc] at hf
    dsimp only at hf
    by_cases hc2 : c2 = '/'
    · rw [if_pos hc2] at hf
      obtain ⟨y, hm, hr4, hy⟩ := dateAfterSecondSlash_some _ _ _ _ hf
      subst hc2
      refine ⟨p2.1, y, ?_, ?_,
        ⟨hsplit.2.2, by rcases hsplit.2.1 with hh | hh <;> omega,
          by rcases hsplit.2.1 with hh | hh <;> omega⟩, hy⟩
      · rw [hm]
        simp [List.append_assoc]
      · rw [hsplit.1, hc, hr4]
    · rw [if_neg hc2] at hf
      exact absurd hf (by simp)

theorem dateAfterFirst_complete (pf g y rr : List Char) (hg : DigitsLen g 1 2)
    (hy : DigitsLen y 4 4) :
    dateAfterFirst pf (g ++ '/' :: (y ++ rr)) = some (pf ++ g ++ '/' :: y, rr) := by
  obtain ⟨hgd, hg1, hg2⟩ := hg
  rcases len12_cases g hg1 hg2 with ⟨a, rfl⟩ | ⟨a, b, rfl⟩
  · have ha : a.isDigit = true := by simpa using hgd
    simp only [List.cons_append, List.nil_append]
    have hd2 : digitsTake 2 (a :: '/' :: (y ++ rr)) = none :=
      digitsTake_two_fail _ _ _ (by decide)
    have hd1 : digitsTake 1 (a :: '/' :: (y ++ rr)) = some ([a], '/' :: (y ++ rr)) :=
      digitsTake_one _ _ ha
    rw [dateAfterFirst, d12, hd2, hd1]
    dsimp only [Option.toList, List.nil_append]
    simp only [firstSome, if_true]
    rw [dateAfterSecondSlash_complete _ y rr hy]
    dsimp only
    simp [List.append_assoc]
  · have ha : a.isDigit = true ∧ b.isDigit = true := by simpa using hgd
    simp only [List.cons_append, List.nil_append]
    have hd2 : digitsTake 2 (a :: b :: '/' :: (y ++ rr)) =
        some ([a, b], '/' :: (y ++ rr)) := digitsTake_two _ _ _ ha.1 ha.2
    have hd1 : digitsTake 1 (a :: b :: '/' :: (y ++ rr)) =
        some ([a], b :: '/' :: (y ++ rr)) := digitsTake_one _ _ ha.1
    rw [dateAfterFirst, d12, hd2, hd1]
    dsimp only [Option.toList, List.nil_append]
    simp only [firstSome, if_true]
    rw [dateAfterSecondSlash_complete _ y rr hy]
    dsimp only
    simp [List.append_assoc]

theorem matchDateCore_some (cs m r : List Char) (h : matchDateCore cs = some (m, r)) :
    cs = m ++ r ∧ DateTok m := by
  unfold matchDateCore at h
  obtain ⟨p1, hmem, hf⟩ := firstSome_some _ _ _ h
  have hp1 := d12_mem cs p1 hmem
  have hsplit : cs = p1.1 ++ p1.2 ∧ (p1.1.length = 2 ∨ p1.1.length = 1) ∧
      p1.1.all Char.isDigit = true := by
    rcases hp1 with hh | hh
    · obtain ⟨a, b, c⟩ := digitsTake_some 2 cs p1.1 p1.2 (by rw [hh])
      exact ⟨a, Or.inl b, c⟩
    · obtain ⟨a, b, c⟩ := digitsTake_some 1 cs p1.1 p1.2 (by rw [hh])
      exact ⟨a, Or.inr b, c⟩
  cases hc : p1.2 with
  | nil =>
    rw [hc] at hf
    exact absurd hf (by simp)
  | cons c1 r2 =>
    rw [hc] at hf
    dsimp only at hf
    by_cases hc1 : c1 = '/'
    · rw [if_pos hc1] at hf
      obtain ⟨g, y, hm, hr2, hg, hy⟩ := dateAfterFirst_some _ _ _ _ hf
      subst hc1
      constructor
      · rw [hsplit.1, hc, hr2, hm]
        simp [List.append_assoc]
      · refine ⟨p1.1, g, y, ?_,
          ⟨hsplit.2.2, by rcases hsplit.2.1 with hh | hh <;> omega,
            by rcases hsplit.2.1 with hh | hh <;> omega⟩, hg, hy⟩
        rw [hm]
        simp [List.append_assoc]
    · rw [if_neg hc1] at hf
      exact absurd hf (by simp)

theorem matchDateCore_complete (m rr : List Char) (hm : DateTok m) :
    matchDateCore (m ++ rr) = some (m, rr) := by
  obtain ⟨g1, g2, y, rfl, hg1, hg2, hy⟩ := hm
  obtain ⟨hg1d, hg1a, hg1b⟩ := hg1
  rcases len12_cases g1 hg1a hg1b with ⟨a, rfl⟩ | ⟨a, b, rfl⟩
  · have ha : a.isDigit = true := by simpa using hg1d
    simp only [List.cons_append, List.nil_append, List.append_assoc]
    have hd2 : digitsTake 2 (a :: '/' :: (g2 ++ '/' :: (y ++ rr))) = none :=
      digitsTake_two_fail _ _ _ (by decide)
    have hd1 : digitsTake 1 (a :: '/' :: (g2 ++ '/' :: (y ++ rr))) =
        some ([a], '/' :: (g2 ++ '/' :: (y ++ rr))) := digitsTake_one _ _ ha
    rw [matchDateCore, d12, hd2, hd1]
    dsimp only [Option.toList, List.nil_append]
    simp only [firstSome, if_true]
    rw [dateAfterFirst_complete _ g2 y rr hg2 hy]
    dsimp only
    simp [List.append_assoc]
  · have ha : a.isDigit = true ∧ b.isDigit = true := by simpa using hg1d
    simp only [List.cons_append, List.nil_append, List.append_assoc]
    have hd2 : digitsTake 2 (a :: b :: '/' :: (g2 ++ '/' :: (y ++ rr))) =
        some ([a, b], '/' :: (g2 ++ '/' :: (y ++ rr))) := digitsTake_two _ _ _ ha.1 ha.2
    have hd1 : digitsTake 1 (a :: b :: '/' :: (g2 ++ '/' :: (y ++ rr))) =
        some ([a], b :: '/' :: (g2 ++ '/' :: (y ++ rr))) := digitsTake_one _ _ ha.1
    rw [matchDateCore, d12, hd2, hd1]
    dsimp only [Option.toList, List.nil_append]
    simp only [firstSome, if_true]
    rw [dateAfterFirst_complete _ g2 y rr hg2 hy]
    dsimp only
    simp [List.append_assoc]

theorem findDate_isSome_iff (cs : List Char) :
    (findDate cs).isSome = true ↔ ∃ pre tok post, cs = pre ++ tok ++ post ∧ DateTok tok := by
  induction cs with
  | nil =>
    constructor
    · intro h
      exact absurd h (by simp [findDate])
    · rintro ⟨pre, tok, post, heq, g1, g2, y, rfl, ⟨_, hg1, _⟩, _⟩
      exfalso
      obtain ⟨h1, _⟩ := List.append_eq_nil.mp heq.symm
      obtain ⟨_, h3⟩ := List.append_eq_nil.mp h1
      rw [List.append_eq_nil] at h3
      have := h3.1
      subst this
      simp at hg1
  | cons c t ih =>
    rw [findDate]
    cases hmc : matchDateCore (c :: t) with
    | some p =>
      simp only [Option.isSome_some, true_iff]
      obtain ⟨heq, htok⟩ := matchDateCore_some _ p.1 p.2 (by rw [hmc])
      exact ⟨[], p.1, p.2, by simpa using heq, htok⟩
    | none =>
      dsimp only
      rw [ih]
      constructor
      · rintro ⟨pre, tok, post, heq, htok⟩
        exact ⟨c :: pre, tok, post, by simp [heq], htok⟩
      · rintro ⟨pre, tok, post, heq, htok⟩
        cases pre with
        | nil =>
          exfalso
          have hcm := matchDateCore_complete tok post htok
          rw [show tok ++ post = c :: t from by simpa using heq.symm] at hcm
          rw [hmc] at hcm
          exact absurd hcm (by simp)
        | cons e pre2 =>
          have hce : c = e ∧ t = pre2 ++ tok ++ post := by simpa using heq
          exact ⟨pre2, tok, post, hce.2, htok⟩

theorem timeAfterColon_some (pf r2 t r : List Char)
    (h : timeAfterColon pf r2 = some (t, r)) :
    ∃ mn w a m, t = pf ++ mn ++ w ++ [a, m] ∧ r2 = mn ++ (w ++ a :: m :: r) ∧
      DigitsLen mn 2 2 ∧ w.all isWsChar = true ∧ isAP a = true ∧ isMChar m = true := by
  unfold timeAfterColon at h
  cases hdt : digitsTake 2 r2 with
  | none =>
    rw [hdt] at h
    exact absurd h (by simp)
  | some q =>
    rw [hdt] at h
    dsimp only at h
    obtain ⟨hsp, hlen, hdig⟩ := digitsTake_some 2 r2 q.1 q.2 (by rw [hdt])
    cases hdw : q.2.dropWhile isWsChar with
    | nil =>
      rw [hdw] at h
      exact absurd h (by simp)
    | cons a rest =>
      cases rest with
      | nil =>
        rw [hdw] at h
        exact absurd h (by simp)
      | cons m r5 =>
        rw [hdw] at h
        dsimp only at h
        by_cases ham : (isAP a && isMChar m) = true
        · rw [if_pos ham] at h
          obtain ⟨ht, hr⟩ := Prod.mk.injEq .. ▸ Option.some.inj h
          subst hr
          obtain ⟨ha, hm⟩ := (Bool.and_eq_true _ _).mp ham
          refine ⟨q.1, q.2.takeWhile isWsChar, a, m, ht.symm, ?_,
            ⟨hdig, by omega, by omega⟩, List.all_takeWhile, ha, hm⟩
          rw [hsp]
          congr 1
          conv_lhs => rw [← List.takeWhile_append_dropWhile isWsChar q.2, hdw]
        · rw [if_neg ham] at h
          exact absurd h (by simp)

theorem timeAfterColon_complete (pf mn w : List Char) (a m : Char) (rr : List Char)
    (hmn : DigitsLen mn 2 2) (hw : w.all isWsChar = true)
    (ha : isAP a = true) (hm : isMChar m = true) :
    timeAfterColon pf (mn ++ (w ++ a :: m :: rr)) = some (pf ++ mn ++ w ++ [a, m], rr) := by
  obtain ⟨hd, h1, h2⟩ := hmn
  have hlen : mn.length = 2 := by omega
  unfold timeAfterColon
  rw [← hlen, digitsTake_append mn _ hd]
  dsimp only
  obtain ⟨htk, hdr⟩ := takeWhile_all_append isWsChar a (m :: rr) (isWsChar_of_isAP a ha) w hw
  rw [hdr, htk]
  dsimp only
  rw [if_pos (by simp [ha, hm])]

theorem matchTimePart_some (cs t r : List Char) (h : matchTimePart cs = some (t, r)) :
    cs = t ++ r ∧ TimeTok t := by
  unfold matchTimePart at h
  obtain ⟨p1, hmem, hf⟩ := firstSome_some _ _ _ h
  have hp1 := d12_mem cs p1 hmem
  have hsplit : cs = p1.1 ++ p1.2 ∧ (p1.1.length = 2 ∨ p1.1.length = 1) ∧
      p1.1.all Char.isDigit = true := by
    rcases hp1 with hh | hh
    · obtain ⟨a, b, c⟩ := digitsTake_some 2 cs p1.1 p1.2 (by rw [hh])
      exact ⟨a, Or.inl b, c⟩
    · obtain ⟨a, b, c⟩ := digitsTake_some 1 cs p1.1 p1.2 (by rw [hh])
      exact ⟨a, Or.inr b, c⟩
  cases hc : p1.2 with
  | nil =>
    rw [hc] at hf
    exact absurd hf (by simp)
  | cons c1 r2 =>
    rw [hc] at hf
    dsimp only at hf
    by_cases hc1 : c1 = ':'
    · rw [if_pos hc1] at hf
      obtain ⟨mn, w, a, m, ht, hr2, hmn, hw, ha, hm⟩ := timeAfterColon_some _ _ _ _ hf
      subst hc1
      constructor
      · rw [hsplit.1, hc, hr2, ht]
        simp [List.append_assoc]
      · refine ⟨p1.1, mn, w, a, m, ?_,
          ⟨hsplit.2.2, by rcases hsplit.2.1 with hh | hh <;> omega,
            by rcases hsplit.2.1 with hh | hh <;> omega⟩, hmn, hw, ha, hm⟩
        rw [ht]
        simp [List.append_assoc]
    · rw [if_neg hc1] at hf
      exact absurd hf (by simp)

theorem matchTimePart_complete (t rr : List Char) (ht : TimeTok t) :
    matchTimePart (t ++ rr) = some (t, rr) := by
  obtain ⟨hh, mn, w, a, m, rfl, hhd, hmn, hw, ha, hm⟩ := ht
  obtain ⟨hhdig, hh1, hh2⟩ := hhd
  rcases len12_cases hh hh1 hh2 with ⟨x, rfl⟩ | ⟨x, y2, rfl⟩
  · have hx : x.isDigit = true := by simpa using hhdig
    simp only [List.cons_append, List.nil_append, List.append_assoc]
    have hd2 : digitsTake 2 (x :: ':' :: (mn ++ (w ++ (a :: m :: rr)))) = none :=
      digitsTake_two_fail _ _ _ (by decide)
    have hd1 : digitsTake 1 (x :: ':' :: (mn ++ (w ++ (a :: m :: rr)))) =
        some ([x], ':' :: (mn ++ (w ++ (a :: m :: rr)))) := digitsTake_one _ _ hx
    rw [matchTimePart, d12, hd2, hd1]
    dsimp only [Option.toList, List.nil_append]
    simp only [firstSome, if_true]
    rw [show mn ++ (w ++ (a :: m :: rr)) = mn ++ (w ++ a :: m :: rr) from rfl,
      timeAfterColon_complete _ mn w a m rr hmn hw ha hm]
    simp [List.append_assoc]
  · have hx : x.isDigit = true ∧ y2.isDigit = true := by simpa using hhdig
    simp only [List.cons_append, List.nil_append, List.append_assoc]
    have hd2 : digitsTake 2 (x :: y2 :: ':' :: (mn ++ (w ++ (a :: m :: rr)))) =
        some ([x, y2], ':' :: (mn ++ (w ++ (a :: m :: rr)))) :=
      digitsTake_two _ _ _ hx.1 hx.2
    have hd1 : digitsTake 1 (x :: y2 :: ':' :: (mn ++ (w ++ (a :: m :: rr)))) =
        some ([x], y2 :: ':' :: (mn ++ (w ++ (a :: m :: rr)))) := digitsTake_one _ _ hx.1
    rw [matchTimePart, d12, hd2, hd1]
    dsimp only [Option.toList, List.nil_append]
    simp only [firstSome, if_true]
    rw [show mn ++ (w ++ (a :: m :: rr)) = mn ++ (w ++ a :: m :: rr) from rfl,
      timeAfterColon_complete _ mn w a m rr hmn hw ha hm]
    simp [List.append_assoc]

theorem matchTimeRange_some (cs : List Char) (p : List Char × List Char)
    (h : matchTimeRange cs = some p) :
    ∃ tok r, cs = tok ++ r ∧ TimeRangeTok tok := by
  unfold matchTimeRange at h
  cases hm1 : matchTimePart cs with
  | none =>
    rw [hm1] at h
    exact absurd h (by simp)
  | some q1 =>
    rw [hm1] at h
    dsimp only at h
    obtain ⟨hcs, htok1⟩ := matchTimePart_some cs q1.1 q1.2 (by rw [hm1])
    cases hdw : q1.2.dropWhile isWsChar with
    | nil =>
      rw [hdw] at h
      exact absurd h (by simp)
    | cons c r3 =>
      rw [hdw] at h
      dsimp only at h
      by_cases hd : isDash c = true
      · rw [if_pos hd] at h
        cases hm2 : matchTimePart (r3.dropWhile isWsChar) with
        | none =>
          rw [hm2] at h
          exact absurd h (by simp)
        | some q2 =>
          obtain ⟨hr3eq, htok2⟩ := matchTimePart_some _ q2.1 q2.2 (by rw [hm2])
          refine ⟨q1.1 ++ q1.2.takeWhile isWsChar ++ c :: (r3.takeWhile isWsChar ++ q2.1),
            q2.2, ?_, ?_⟩
          · rw [hcs]
            conv_lhs => rw [← List.takeWhile_append_dropWhile isWsChar q1.2, hdw]
            conv_lhs => rw [← List.takeWhile_append_dropWhile isWsChar r3, hr3eq]
            simp [List.append_assoc]
          · exact ⟨q1.1, q1.2.takeWhile isWsChar, c, r3.takeWhile isWsChar, q2.1, rfl,
              htok1, htok2, List.all_takeWhile, List.all_takeWhile, hd⟩
      · rw [if_neg hd] at h
        exact absurd h (by simp)

theorem matchTimeRange_complete (tok rr : List Char) (ht : TimeRangeTok tok) :
    (matchTimeRange (tok ++ rr)).isSome = true := by
  obtain ⟨t1, w1, dsh, w2, t2, rfl, ht1, ht2, hw1, hw2, hd⟩ := ht
  have hhead : ∃ x rest2, t2 ++ rr = x :: rest2 ∧ isWsChar x = false := by
    obtain ⟨h2, mn2, ww, a2, m2, heq2, ⟨hdig2, hlen21, _⟩, _⟩ := ht2
    cases h2 with
    | nil => simp at hlen21
    | cons x hrest =>
      have hxd : x.isDigit = true := by
        simp only [List.all_cons, Bool.and_eq_true] at hdig2
        exact hdig2.1
      refine ⟨x, (hrest ++ ':' :: (mn2 ++ ww ++ [a2, m2])) ++ rr, ?_,
        isWsChar_of_isDigit x hxd⟩
      rw [heq2]
      simp [List.append_assoc]
  obtain ⟨x, rest2, hsh2, hxw⟩ := hhead
  have hsh : (t1 ++ w1 ++ dsh :: (w2 ++ t2)) ++ rr =
      t1 ++ (w1 ++ dsh :: (w2 ++ x :: rest2)) := by
    rw [← hsh2]
    simp [List.append_assoc]
  rw [hsh]
  unfold matchTimeRange
  rw [matchTimePart_complete t1 _ ht1]
  dsimp only
  obtain ⟨_, hdr1⟩ := takeWhile_all_append isWsChar dsh (w2 ++ x :: rest2)
    (isWsChar_of_isDash dsh hd) w1 hw1
  rw [hdr1]
  dsimp only
  rw [if_pos hd]
  obtain ⟨_, hdr2⟩ := takeWhile_all_append isWsChar x rest2 hxw w2 hw2
  rw [hdr2, ← hsh2, matchTimePart_complete t2 rr ht2]
  simp

theorem findTimeRange_isSome_iff (cs : List Char) :
    (findTimeRange cs).isSome = true ↔
      ∃ pre tok post, cs = pre ++ tok ++ post ∧ TimeRangeTok tok := by
  induction cs with
  | nil =>
    constructor
    · intro h
      exact absurd h (by simp [findTimeRange])
    · rintro ⟨pre, tok, post, heq, t1, w1, dsh, w2, t2, rfl,
        ⟨h1, _, _, _, _, heq1, ⟨_, hlen, _⟩, _⟩, _⟩
      exfalso
      obtain ⟨hpre, _⟩ := List.append_eq_nil.mp heq.symm
      obtain ⟨_, htok⟩ := List.append_eq_nil.mp hpre
      obtain ⟨ht1nil, _⟩ := List.append_eq_nil.mp (List.append_eq_nil.mp htok).1
      rw [ht1nil] at heq1
      obtain ⟨hh1, _⟩ := List.append_eq_nil.mp heq1.symm
      rw [hh1] at hlen
      simp at hlen
  | cons c t ih =>
    rw [findTimeRange]
    cases hmc : matchTimeRange (c :: t) with
    | some p =>
      simp only [Option.isSome_some, true_iff]
      obtain ⟨tok, r, heq, htok⟩ := matchTimeRange_some _ p hmc
      exact ⟨[], tok, r, by simpa using heq, htok⟩
    | none =>
      dsimp only
      rw [ih]
      constructor
      · rintro ⟨pre, tok, post, heq, htok⟩
        exact ⟨c :: pre, tok, post, by simp [heq], htok⟩
      · rintro ⟨pre, tok, post, heq, htok⟩
        cases pre with
        | nil =>
          exfalso
          have hcm := matchTimeRange_complete tok post htok
          rw [show tok ++ post = c :: t from by simpa using heq.symm, hmc] at hcm
          simp at hcm
        | cons e pre2 =>
          have hce : c = e ∧ t = pre2 ++ tok ++ post := by simpa using heq
          exact ⟨pre2, tok, post, hce.2, htok⟩

/-- C3.  The strict normalizer returns a triple exactly when the date
field contains a date token (one or two digits, slash, one or two
digits, slash, four digits) and the time field (or, when the time
field is the empty string, the date field) contains a time-range token
(two time tokens around a hyphen, en dash, or em dash); the claimed
example parses to local 10:00 and 11:30 on 2024-01-15, and a range
missing its meridiem marker yields none. -/
theorem claim3_strict_normalizer :
    (∀ dateText timeText : String,
        (parseDateTime dateText timeText).isSome = true ↔
          (ContainsTok DateTok dateText ∧
            ContainsTok TimeRangeTok (if timeText = "" then dateText else timeText))) ∧
    parseDateTime "01/15/2024" "10:00 AM - 11:30 AM" =
      some ⟨"01/15/2024", "10:00 AM", "11:30 AM"⟩ ∧
    toISO "01/15/2024 10:00 AM" = some (localMs 2024 1 15 10 0) ∧
    toISO "01/15/2024 11:30 AM" = some (localMs 2024 1 15 11 30) ∧
    parseDateTime "01/15/2024" "10:00 - 11:30" = none := by
  refine ⟨?_, by decide, by decide, by decide, by decide⟩
  intro dateText timeText
  have hiff : (parseDateTime dateText timeText).isSome = true ↔
      ((findDate dateText.data).isSome = true ∧
        (findTimeRange (if timeText = "" then dateText else timeText).data).isSome = true) := by
    unfold parseDateTime
    cases findDate dateText.data <;>
      cases findTimeRange (if timeText = "" then dateText else timeText).data <;> simp
  rw [hiff, findDate_isSome_iff, findTimeRange_isSome_iff]
  exact Iff.rfl

end Scraper
